import Mathlib

/-!
Shallow embedding of the `rustplexity` bigram perplexity scorer
(`src/lib.rs`) and verification of its specification.

Modelling conventions:
* Rust `f64` values are modelled as exact rationals (`ℚ`) where the code
  only stores and combines them, and as real numbers (`ℝ`) where the code
  applies transcendental functions (`log2`, `powf`).  IEEE rounding,
  infinities and NaN are outside the model.
* `HashMap<String, f64>` is modelled as an association list with
  duplicate-free keys; `insert` replaces the value of an existing key,
  exactly like `HashMap::insert`.
* File I/O is modelled by passing the file's contents as its list of
  lines; I/O errors themselves are not modelled (only parse failures).
* `str::to_lowercase` is modelled on the basic-latin range (the only
  range `Char.toLower` handles); all inputs of interest are ASCII.
-/

namespace Rustplexity

/-! ## Probability tables (`HashMap<String, f64>`) -/

abbrev Table := List (String × ℚ)

/-- First-match lookup, the model of `HashMap::get`. -/
def lookupTable : Table → String → Option ℚ
  | [], _ => none
  | (k2, v) :: rest, k => if k2 = k then some v else lookupTable rest k

/-- The model of `HashMap::insert`: replace the value of an existing key,
otherwise append a new entry. -/
def hmInsert : Table → String → ℚ → Table
  | [], k, v => [(k, v)]
  | (k2, v2) :: rest, k, v =>
    if k2 = k then (k, v) :: rest else (k2, v2) :: hmInsert rest k v

def keysOf (m : Table) : List String := m.map Prod.fst

def nodupKeys (m : Table) : Prop := (keysOf m).Nodup

/-- Number of entries of `m` whose key is `k`. -/
def countKey (m : Table) (k : String) : Nat :=
  (m.filter (fun p => p.1 = k)).length

/-! ## Parsing a float literal (`str::parse::<f64>()`)

Models the grammar Rust's `f64::from_str` accepts for finite decimal
literals: optional sign, then digits with an optional fractional part
(at least one digit overall), then an optional exponent `e`/`E` with an
optional sign and at least one digit.  The whole string must be
consumed.  The non-finite literals `inf`/`infinity`/`nan` are outside
the model, since values are exact rationals. -/

/-- Numeric value of a digit string, most significant digit first. -/
def digitsVal (l : List Char) : Nat :=
  l.foldl (fun n c => n * 10 + (c.toNat - 48)) 0

/-- Parse the part after `e`/`E`: optional sign then at least one digit. -/
def parseExpPart (l : List Char) : Option ℤ :=
  match l with
  | [] => none
  | '+' :: ds =>
    if ds ≠ [] ∧ ds.all Char.isDigit then some (digitsVal ds) else none
  | '-' :: ds =>
    if ds ≠ [] ∧ ds.all Char.isDigit then some (-(digitsVal ds : ℤ)) else none
  | ds =>
    if ds.all Char.isDigit then some (digitsVal ds) else none

/-- Syntactic part of the parse: the sign, the mantissa digits read as a
natural number, the number of fractional digits, and the exponent.
Separated from the valuation so that it is kernel-decidable. -/
def parseFloatRaw (s : String) : Option (Bool × Nat × Nat × ℤ) :=
  let cs := s.data
  let signAndRest : Bool × List Char :=
    match cs with
    | '+' :: rest => (false, rest)
    | '-' :: rest => (true, rest)
    | _ => (false, cs)
  let neg := signAndRest.1
  let cs1 := signAndRest.2
  let intDigits := cs1.takeWhile Char.isDigit
  let rest1 := cs1.dropWhile Char.isDigit
  let fracAndRest : List Char × List Char :=
    match rest1 with
    | '.' :: r => (r.takeWhile Char.isDigit, r.dropWhile Char.isDigit)
    | _ => ([], rest1)
  let fracDigits := fracAndRest.1
  let rest2 := fracAndRest.2
  if intDigits = [] ∧ fracDigits = [] then none
  else
    let mant := digitsVal (intDigits ++ fracDigits)
    match rest2 with
    | [] => some (neg, mant, fracDigits.length, 0)
    | e :: r =>
      if e = 'e' ∨ e = 'E' then
        match parseExpPart r with
        | some ex => some (neg, mant, fracDigits.length, ex)
        | none => none
      else none

/-- The rational value of a parsed literal:
`±(mantissa / 10^fracLen) * 10^exponent`. -/
def floatVal (neg : Bool) (mant fracLen : Nat) (ex : ℤ) : ℚ :=
  (if neg then -1 else 1) * ((mant : ℚ) / (10 : ℚ) ^ fracLen) * (10 : ℚ) ^ ex

def parseFloat (s : String) : Option ℚ :=
  (parseFloatRaw s).map (fun t => floatVal t.1 t.2.1 t.2.2.1 t.2.2.2)

/-! ## The table loader (`load_hashmap_from_file`)

The Rust loader iterates over the file's lines; for each line it does
`line.rsplitn(2, ' ')`, parses the first piece (the part after the last
space, or the whole line when there is no space) as an `f64` —
propagating a parse failure with `?` — and inserts the second piece
(the part before the last space, or `""`) as the key. -/

/-- Model of `line.rsplitn(2, ' ')`: the part after the last space
(the whole line when there is no space), and the part before it. -/
def rsplit2 (s : String) : String × Option String :=
  let r := s.data.reverse
  let probRev := r.takeWhile (fun c => c != ' ')
  match r.dropWhile (fun c => c != ' ') with
  | [] => (String.mk probRev.reverse, none)
  | _ :: t => (String.mk probRev.reverse, some (String.mk t.reverse))

/-- The probability field of a line: `split.next().unwrap_or("")`. -/
def lineProbField (l : String) : String := (rsplit2 l).1

/-- The key of a line: `split.next().unwrap_or("").to_string()`. -/
def lineKey (l : String) : String := ((rsplit2 l).2).getD ""

/-- The parsed probability of a line, if its trailing field parses. -/
def lineProb (l : String) : Option ℚ := parseFloat (lineProbField l)

/-- The loader's while-loop, starting from the accumulated map `hm`.
A parse failure aborts the whole load with an error carrying the
offending field. -/
def loadGo (hm : Table) : List String → Except String Table
  | [] => Except.ok hm
  | l :: rest =>
    match lineProb l with
    | none => Except.error (lineProbField l)
    | some p => loadGo (hmInsert hm (lineKey l) p) rest

/-- `load_hashmap_from_file`, on the file's contents given as its lines. -/
def loadLines (lines : List String) : Except String Table :=
  loadGo [] lines

/-! ## Model construction (`BigramPerplexityModel::from_file`)

The Rust code spawns two tasks, one per file, joins both, and then
propagates the unigram task's error first, then the bigram task's; the
tasks share no state, so construction is modelled by running the two
loads sequentially.  `fromFileSwapped` runs them in the other order, to
state order-independence. -/

structure BigramData where
  bigrams : Table
  unigrams : Table
  deriving DecidableEq

def from_file (uniLines biLines : List String) : Except String BigramData := do
  let tu ← loadLines uniLines
  let tb ← loadLines biLines
  pure { bigrams := tb, unigrams := tu }

/-- The same construction with the two loads run in the other order. -/
def fromFileSwapped (uniLines biLines : List String) :
    Except String BigramData := do
  let tb ← loadLines biLines
  let tu ← loadLines uniLines
  pure { bigrams := tb, unigrams := tu }

/-! ## The tokenizer (`tokenize_sentence`)

The Rust code replaces every occurrence of the regex class
`[,;:.!?¿¡()<>="'`]` by itself surrounded with spaces, splits on runs
of ASCII whitespace, and keeps the non-empty fragments. -/

/-- The characters of the punctuation regex class (the last three are
the double quote, the apostrophe and the backtick). -/
def punctList : List Char :=
  [',', ';', ':', '.', '!', '?', Char.ofNat 191, Char.ofNat 161,
   '(', ')', '<', '>', '=', Char.ofNat 34, Char.ofNat 39, Char.ofNat 96]

def isPunct (c : Char) : Bool := punctList.contains c

/-- `PUNCTUATION_PATTERN.replace_all(sentence, " $0 ")`: a space before
and after every punctuation character. -/
def spaced (l : List Char) : List Char :=
  (l.map (fun c => if isPunct c then [' ', c, ' '] else [c])).flatten

/-- `char::is_ascii_whitespace`. -/
def isAsciiWS (c : Char) : Bool :=
  c == ' ' || c == '\t' || c == '\n' || c == '\x0C' || c == '\r'

/-- Prepend a character to the first group (used by `splitP`). -/
def consHead (c : Char) : List (List Char) → List (List Char)
  | [] => [[c]]
  | g :: gs => (c :: g) :: gs

/-- Split a character list at every separator, keeping empty groups. -/
def splitP (p : Char → Bool) : List Char → List (List Char)
  | [] => [[]]
  | c :: l => if p c then [] :: splitP p l else consHead c (splitP p l)

/-- `tokenize_sentence`: surround punctuation with spaces, split on
ASCII whitespace, keep the non-empty fragments. -/
def tokenize_sentence (s : String) : List String :=
  ((splitP isAsciiWS (spaced s.data)).filter (fun g => !g.isEmpty)).map
    (fun g => String.mk g)

/-- Model of `str::to_lowercase` (basic-latin range). -/
def toLowerStr (s : String) : String := String.mk (s.data.map Char.toLower)

/-- A group is good when any punctuation character it contains is the
whole group. -/
def GoodGroup (g : List Char) : Prop :=
  ∀ c ∈ g, isPunct c = true → g = [c]

/-! ## Perplexity scoring (`compute_sentence`) -/

/-- The interpolated probability of one token:
`bi_dec * 0.8 + uni_dec * 0.2 + 1e-6`, with both lookups defaulting
to `0.0` when the key is absent. -/
def interp (d : BigramData) (prev w : String) : ℚ :=
  let bi := (lookupTable d.bigrams (prev ++ " " ++ w)).getD 0
  let uni := (lookupTable d.unigrams w).getD 0
  bi * (8 / 10) + uni * (2 / 10) + 1 / 1000000

/-- One token's contribution to the running sum:
`(bi_dec * 0.8 + uni_dec * 0.2 + 1e-6).log2()`. -/
noncomputable def tokenLog (d : BigramData) (prev w : String) : ℝ :=
  Real.logb 2 ((interp d prev w : ℚ) : ℝ)

/-- `compute_sentence`: tokenize the lowercased sentence; return `0.0`
when there are no tokens; otherwise fold over the tokens carrying the
previous word (initially `"#"`) and the running log-probability sum, and
return `2^(-sum / N)`. -/
noncomputable def compute_sentence (d : BigramData) (s : String) : ℝ :=
  let words := tokenize_sentence (toLowerStr s)
  if words.length = 0 then 0
  else
    (2 : ℝ) ^
      (-((words.foldl (fun acc w => (w, acc.2 + tokenLog d acc.1 w))
            ("#", (0 : ℝ))).2
          / (words.length : ℝ)))

/-- The spec's description of the running sum: over the tokens in order,
with a previous-word variable initialized to `"#"` and advanced after
each step. -/
noncomputable def chainSum (d : BigramData) : String → List String → ℝ
  | _, [] => 0
  | prev, w :: ws => tokenLog d prev w + chainSum d w ws

/-- The value stored for key `k` by the last line of `lines` whose key
is `k`, if any. -/
def lastVal (lines : List String) (k : String) : Option ℚ :=
  match lines.reverse.find? (fun l => lineKey l == k) with
  | none => none
  | some l => lineProb l

/-- The spec's single-token example model: unigram table
`{"cat": 0.5}`, bigram table `{"# cat": 0.3}`. -/
def catModel : BigramData :=
  { bigrams := [("# cat", 3 / 10)], unigrams := [("cat", 1 / 2)] }

/-! ## Theorems -/

/-- C2: for every model and every sentence string, `compute_sentence`
returns a non-negative value: either the `0.0` of the empty-token case
or a power of `2`. -/
theorem compute_sentence_nonneg (d : BigramData) (s : String) :
    0 ≤ compute_sentence d s := by
  rw [compute_sentence]
  split
  · exact le_refl 0
  · exact Real.rpow_nonneg (by norm_num) _

/-- C5: for every model and every sentence whose token sequence is
empty — in particular the empty string — `compute_sentence` returns
exactly `0.0` (the function is total, so no error is signalled). -/
theorem compute_sentence_empty (d : BigramData) (s : String)
    (h : tokenize_sentence (toLowerStr s) = []) :
    compute_sentence d s = 0 ∧ compute_sentence d "" = 0 := by
  constructor
  · rw [compute_sentence, h]
    rfl
  · rw [compute_sentence]
    have h2 : tokenize_sentence (toLowerStr "") = [] := by decide
    rw [h2]
    rfl

/-- Witness for C5 at the empty string. -/
theorem compute_sentence_empty_witness :
    compute_sentence catModel "" = 0 :=
  (compute_sentence_empty catModel "" (by decide)).1

/-- The scoring fold carrying (previous word, running sum) computes the
chained sum of per-token log contributions. -/
theorem foldl_score_eq_chainSum (d : BigramData) :
    ∀ (ws : List String) (p : String) (a : ℝ),
      (ws.foldl (fun acc w => (w, acc.2 + tokenLog d acc.1 w)) (p, a)).2
        = a + chainSum d p ws := by
  intro ws
  induction ws with
  | nil => intro p a; simp [chainSum]
  | cons w ws ih =>
    intro p a
    rw [List.foldl_cons]
    rw [ih w (a + tokenLog d p w), chainSum, add_assoc]

/-- The interpolated value of the example model on its single token,
cast to the reals, is the spec's `0.3 * 0.8 + 0.5 * 0.2 + 1e-6`. -/
theorem interp_catModel :
    ((interp catModel "#" "cat" : ℚ) : ℝ) = 0.3 * 0.8 + 0.5 * 0.2 + 1e-6 := by
  have h : interp catModel "#" "cat" = 340001 / 1000000 := by
    rw [interp]
    have h1 : lookupTable catModel.bigrams ("#" ++ " " ++ "cat")
        = some (3 / 10) := by
      simp [catModel, lookupTable]
    have h2 : lookupTable catModel.unigrams "cat" = some (1 / 2) := by
      simp [catModel, lookupTable]
    rw [h1, h2]
    norm_num
  rw [h]
  push_cast
  norm_num

/-- C1: for every model and every sentence with a non-empty token
sequence, `compute_sentence` returns `2^(-S/N)` where `N` is the token
count and `S` is the left-to-right chained sum of
`log2(bigram * 0.8 + unigram * 0.2 + 1e-6)` contributions starting from
the sentinel previous word `"#"`; and on the spec's example model,
`compute_sentence "cat" = 2^(-log2(0.3*0.8+0.5*0.2+1e-6))`. -/
theorem compute_sentence_closed_form (d : BigramData) (s : String)
    (h : tokenize_sentence (toLowerStr s) ≠ []) :
    compute_sentence d s
      = (2 : ℝ) ^ (-(chainSum d "#" (tokenize_sentence (toLowerStr s))
          / ((tokenize_sentence (toLowerStr s)).length : ℝ)))
    ∧ compute_sentence catModel "cat"
      = (2 : ℝ) ^ (-(Real.logb 2 (0.3 * 0.8 + 0.5 * 0.2 + 1e-6))) := by
  constructor
  · rw [compute_sentence]
    rw [if_neg (by simpa using h)]
    rw [foldl_score_eq_chainSum, zero_add]
  · rw [compute_sentence]
    have ht : tokenize_sentence (toLowerStr "cat") = ["cat"] := by decide
    rw [ht]
    have hv : (0.3 : ℝ) * 0.8 + 0.5 * 0.2 + 1e-6 = 340001 / 1000000 := by
      norm_num
    norm_num
    rw [tokenLog, interp_catModel, hv]

/-- Witness for C1 at the example model and the sentence `"cat"`. -/
theorem compute_sentence_closed_form_witness :
    compute_sentence catModel "cat"
      = (2 : ℝ) ^ (-(Real.logb 2 (0.3 * 0.8 + 0.5 * 0.2 + 1e-6))) :=
  (compute_sentence_closed_form catModel "cat" (by decide)).2

/-- Punctuation characters are not ASCII whitespace. -/
theorem isPunct_not_ws (c : Char) (h : isPunct c = true) :
    isAsciiWS c = false := by
  have hall : ∀ x ∈ punctList, isAsciiWS x = false := by decide
  exact hall c (by simpa [isPunct] using h)

theorem spaced_cons (c : Char) (l : List Char) :
    spaced (c :: l)
      = (if isPunct c then [' ', c, ' '] else [c]) ++ spaced l := by
  simp [spaced]

/-- Splitting the space-padded text on whitespace yields groups that are
punctuation-free or a single punctuation character, and the first group
is punctuation-free. -/
theorem goodGroup_nil : GoodGroup [] := by
  intro c hc
  exact absurd hc (List.not_mem_nil c)

theorem goodGroup_singleton (c : Char) : GoodGroup [c] := by
  intro d hd _
  rcases List.mem_cons.mp hd with rfl | h
  · rfl
  · exact absurd h (List.not_mem_nil d)

theorem goodGroup_of_noPunct (g : List Char)
    (h : ∀ c ∈ g, isPunct c = false) : GoodGroup g := by
  intro c hc hcp
  rw [h c hc] at hcp
  cases hcp

/-- Splitting the space-padded text on whitespace yields groups that are
punctuation-free or a single punctuation character, and the first group
is punctuation-free. -/
theorem splitP_spaced_struct (l : List Char) :
    ∃ g gs, splitP isAsciiWS (spaced l) = g :: gs
      ∧ (∀ c ∈ g, isPunct c = false)
      ∧ ∀ gr ∈ g :: gs, GoodGroup gr := by
  induction l with
  | nil =>
    refine ⟨[], [], rfl, by simp, ?_⟩
    intro gr hgr
    rcases List.mem_cons.mp hgr with rfl | h
    · exact goodGroup_nil
    · exact absurd h (List.not_mem_nil gr)
  | cons c l ih =>
    obtain ⟨g, gs, hs, hnp, hgood⟩ := ih
    by_cases hc : isPunct c = true
    · have hw := isPunct_not_ws c hc
      have hsp : isAsciiWS ' ' = true := by decide
      rw [spaced_cons, if_pos hc]
      simp only [List.cons_append, List.nil_append]
      rw [splitP, if_pos hsp, splitP, if_neg (by simp [hw]), splitP,
        if_pos hsp, hs]
      refine ⟨[], [c] :: g :: gs, by simp [consHead], by simp, ?_⟩
      intro gr hgr
      rcases List.mem_cons.mp hgr with rfl | hgr1
      · exact goodGroup_nil
      · rcases List.mem_cons.mp hgr1 with rfl | hgr2
        · exact goodGroup_singleton c
        · exact hgood gr hgr2
    · have hcf : isPunct c = false := by simpa using hc
      rw [spaced_cons, if_neg (by simp [hcf])]
      simp only [List.singleton_append]
      by_cases hw : isAsciiWS c = true
      · rw [splitP, if_pos hw, hs]
        refine ⟨[], g :: gs, rfl, by simp, ?_⟩
        intro gr hgr
        rcases List.mem_cons.mp hgr with rfl | hgr1
        · exact goodGroup_nil
        · exact hgood gr hgr1
      · have hwf : isAsciiWS c = false := by simpa using hw
        rw [splitP, if_neg (by simp [hwf]), hs]
        have hng : ∀ d ∈ c :: g, isPunct d = false := by
          intro d hd
          rcases List.mem_cons.mp hd with rfl | hd1
          · exact hcf
          · exact hnp d hd1
        refine ⟨c :: g, gs, by simp [consHead], hng, ?_⟩
        intro gr hgr
        rcases List.mem_cons.mp hgr with rfl | hgr1
        · exact goodGroup_of_noPunct _ hng
        · exact hgood gr (List.mem_cons_of_mem g hgr1)

theorem flatten_consHead (c : Char) (gs : List (List Char)) :
    (consHead c gs).flatten = c :: gs.flatten := by
  cases gs with
  | nil => rfl
  | cons g gs => rfl

/-- The groups of `splitP` flatten back to the non-separator characters
of the input, in order. -/
theorem flatten_splitP (p : Char → Bool) :
    ∀ l : List Char, (splitP p l).flatten = l.filter (fun c => !p c) := by
  intro l
  induction l with
  | nil => rfl
  | cons c l ih =>
    rw [splitP]
    by_cases hc : p c = true
    · rw [if_pos hc]
      simp only [List.flatten_cons, List.nil_append, ih, List.filter_cons,
        hc]
      rfl
    · have hcf : p c = false := by simpa using hc
      rw [if_neg (by simp [hcf]), flatten_consHead, ih]
      simp [List.filter_cons, hcf]

/-- Dropping empty groups does not change the flattening. -/
theorem flatten_filter_nonempty :
    ∀ gs : List (List Char),
      (gs.filter (fun g => !g.isEmpty)).flatten = gs.flatten := by
  intro gs
  induction gs with
  | nil => rfl
  | cons g gs ih =>
    cases g with
    | nil => simpa using ih
    | cons c g => simpa using ih

/-- C4: every token of the (lowercased) tokenization is non-empty; any
punctuation character occurring in a token is the whole token; the
tokens flatten back to the non-whitespace characters of the
space-padded lowercased input in left-to-right order; and
`"Hello, world!"` tokenizes to `["hello", ",", "world", "!"]`. -/
theorem tokenize_sentence_spec (s t : String)
    (h : t ∈ tokenize_sentence (toLowerStr s)) :
    t ≠ ""
    ∧ (∀ c ∈ t.data, isPunct c = true → t.data = [c])
    ∧ ((tokenize_sentence (toLowerStr s)).map String.data).flatten
        = (spaced (toLowerStr s).data).filter (fun c => !isAsciiWS c)
    ∧ tokenize_sentence (toLowerStr "Hello, world!")
        = ["hello", ",", "world", "!"] := by
  obtain ⟨g, hg, hgt⟩ := List.mem_map.mp h
  have hgs := List.mem_filter.mp hg
  have hgne : g ≠ [] := by
    intro hnil
    rw [hnil] at hgs
    simp at hgs
  refine ⟨?_, ?_, ?_, by decide⟩
  · intro ht
    rw [← hgt] at ht
    exact hgne (by simpa using congrArg String.data ht)
  · intro c hc hcp
    obtain ⟨g0, gs0, hsplit, _, hgood⟩ :=
      splitP_spaced_struct (toLowerStr s).data
    have hmem : g ∈ g0 :: gs0 := by
      rw [← hsplit]; exact hgs.1
    have : t.data = g := by rw [← hgt]
    rw [this] at hc ⊢
    exact hgood g hmem c hc hcp
  · rw [tokenize_sentence]
    rw [List.map_map]
    have hdata : (String.data ∘ fun g => String.mk g) = id := by
      funext x; rfl
    rw [hdata, List.map_id, flatten_filter_nonempty, flatten_splitP]

/-- Witness for C4 at `"Hello, world!"` and its first token. -/
theorem tokenize_sentence_spec_witness :
    ("hello" : String) ≠ ""
    ∧ tokenize_sentence (toLowerStr "Hello, world!")
        = ["hello", ",", "world", "!"] := by
  have h := tokenize_sentence_spec "Hello, world!" "hello" (by decide)
  exact ⟨h.1, h.2.2.2⟩

/-- The value of the literal `"0.5"`. -/
theorem parseFloat_half : parseFloat "0.5" = some (1 / 2) := by
  have h : parseFloatRaw "0.5" = some (false, 5, 1, 0) := by decide
  rw [parseFloat, h]
  simp [floatVal]
  norm_num

theorem takeWhile_append_stop (p : Char → Bool) (a : List Char) (b : Char)
    (t : List Char) (ha : ∀ c ∈ a, p c = true) (hb : p b = false) :
    (a ++ b :: t).takeWhile p = a ∧ (a ++ b :: t).dropWhile p = b :: t := by
  induction a with
  | nil =>
    simp [List.takeWhile_cons, List.dropWhile_cons, hb]
  | cons x a ih =>
    have hx : p x = true := ha x (List.mem_cons_self x a)
    have ha2 : ∀ c ∈ a, p c = true := fun c hc =>
      ha c (List.mem_cons_of_mem x hc)
    obtain ⟨ih1, ih2⟩ := ih ha2
    constructor
    · simp [List.takeWhile_cons, hx, ih1]
    · simp [List.dropWhile_cons, hx, ih2]

/-- `rsplitn(2, ' ')` on a line with no space: the whole line is the
trailing field and there is no remainder. -/
theorem rsplit2_of_no_space (s : String) (h : ∀ c ∈ s.data, c ≠ ' ') :
    rsplit2 s = (s, none) := by
  have hall : ∀ c ∈ s.data.reverse, (c != ' ') = true := by
    intro c hc
    simpa using h c (List.mem_reverse.mp hc)
  have htake : s.data.reverse.takeWhile (fun c => c != ' ')
      = s.data.reverse := List.takeWhile_eq_self_iff.mpr hall
  have hdrop : s.data.reverse.dropWhile (fun c => c != ' ')
      = [] := List.dropWhile_eq_nil_iff.mpr hall
  rw [rsplit2]
  simp only [htake, hdrop, List.reverse_reverse]

/-- `rsplitn(2, ' ')` splits from the right on the first space: when the
trailing field `v` is space-free, `"<k> <v>"` splits into the field `v`
and the key `k` — even when `k` itself contains a space. -/
theorem rsplit2_append (k v : String) (hv : ∀ c ∈ v.data, c ≠ ' ') :
    rsplit2 (k ++ " " ++ v) = (v, some k) := by
  have hdata : (k ++ " " ++ v).data = k.data ++ ' ' :: v.data := by
    simp [String.data_append]
  have hrev : (k ++ " " ++ v).data.reverse
      = v.data.reverse ++ ' ' :: k.data.reverse := by
    rw [hdata, List.reverse_append, List.reverse_cons, List.append_assoc]
    simp
  have hall : ∀ c ∈ v.data.reverse, (fun c => c != ' ') c = true := by
    intro c hc
    simpa using hv c (List.mem_reverse.mp hc)
  obtain ⟨htake, hdrop⟩ := takeWhile_append_stop (fun c => c != ' ')
    v.data.reverse ' ' k.data.reverse hall (by decide)
  rw [rsplit2]
  simp only [hrev, htake, hdrop, List.reverse_reverse]

/-- C3: the loader splits each line from the right on the first space;
loading the single line `"<k> <v>"` (space-free `v` parsing to `q`)
yields exactly the entry `k ↦ q`, and `"w1 w2 0.5"` yields the two-word
key `"w1 w2"` mapped to `0.5`. -/
theorem load_line_splits_from_right (k v : String) (q : ℚ)
    (hv : ∀ c ∈ v.data, c ≠ ' ') (hq : parseFloat v = some q) :
    rsplit2 (k ++ " " ++ v) = (v, some k)
    ∧ loadLines [k ++ " " ++ v] = Except.ok [(k, q)]
    ∧ loadLines ["w1 w2 0.5"] = Except.ok [("w1 w2", 1 / 2)] := by
  have hr := rsplit2_append k v hv
  refine ⟨hr, ?_, ?_⟩
  · have hp : lineProb (k ++ " " ++ v) = some q := by
      rw [lineProb, lineProbField, hr]
      exact hq
    have hk : lineKey (k ++ " " ++ v) = k := by
      rw [lineKey, hr]
      rfl
    rw [loadLines, loadGo, hp, hk]
    rfl
  · have hp : lineProb "w1 w2 0.5" = some (1 / 2) := by
      rw [lineProb]
      have hf : lineProbField "w1 w2 0.5" = "0.5" := by decide
      rw [hf, parseFloat_half]
    have hk : lineKey "w1 w2 0.5" = "w1 w2" := by decide
    rw [loadLines, loadGo, hp, hk]
    rfl

/-- Witness for C3 at the bigram-style line `"w1 w2 0.5"`. -/
theorem load_line_splits_from_right_witness :
    rsplit2 ("w1 w2" ++ " " ++ "0.5") = ("0.5", some "w1 w2")
    ∧ loadLines ["w1 w2" ++ " " ++ "0.5"] = Except.ok [("w1 w2", 1 / 2)] := by
  have h := load_line_splits_from_right "w1 w2" "0.5" (1 / 2)
    (by decide) parseFloat_half
  exact ⟨h.1, h.2.1⟩

/-- C8 counterexample: `"notanumber"` contains no space, yet the loader
rejects it (with a numeric-parse error) instead of accepting it. -/
theorem no_space_line_counterexample :
    (∀ c ∈ ("notanumber" : String).data, c ≠ ' ')
    ∧ loadLines ["notanumber"] = Except.error "notanumber" :=
  ⟨by decide, by rfl⟩

/-- C8 (amended): a line with no space is not rejected for lacking a
space: its whole text is taken as the numeric field and the key becomes
`""`; when that field parses to `q` the loader records `"" ↦ q`, and
when it does not parse the load fails with the numeric-parse error. -/
theorem no_space_line_gets_empty_key (line : String) (q : ℚ)
    (hns : ∀ c ∈ line.data, c ≠ ' ') (hq : parseFloat line = some q) :
    loadLines [line] = Except.ok [("", q)]
    ∧ ∀ line2 : String, (∀ c ∈ line2.data, c ≠ ' ') →
        parseFloat line2 = none → loadLines [line2] = Except.error line2 := by
  constructor
  · have hr := rsplit2_of_no_space line hns
    have hp : lineProb line = some q := by
      rw [lineProb, lineProbField, hr]
      exact hq
    have hk : lineKey line = "" := by
      rw [lineKey, hr]
      rfl
    rw [loadLines, loadGo, hp, hk]
    rfl
  · intro l2 hns2 hbad
    have hr := rsplit2_of_no_space l2 hns2
    have hp : lineProb l2 = none := by
      rw [lineProb, lineProbField, hr]
      exact hbad
    rw [loadLines, loadGo, hp, lineProbField, hr]

/-- Witness for C8's amended claim at the space-free line `"0.5"`. -/
theorem no_space_line_gets_empty_key_witness :
    loadLines ["0.5"] = Except.ok [("", 1 / 2)] :=
  (no_space_line_gets_empty_key "0.5" (1 / 2) (by decide) parseFloat_half).1

/-- Bind on a successful `Except` computation. -/
theorem except_bind_ok {α β : Type} (a : α) (f : α → Except String β) :
    (Except.ok a >>= f) = f a := rfl

/-- Bind on a failed `Except` computation. -/
theorem except_bind_error {α β : Type} (e : String)
    (f : α → Except String β) :
    ((Except.error e : Except String α) >>= f) = Except.error e := rfl

/-- A load whose input contains an unparseable trailing field fails,
from any starting accumulator. -/
theorem loadGo_error_of_bad (lines : List String) : ∀ hm : Table,
    (∃ l ∈ lines, lineProb l = none) →
    ∃ e, loadGo hm lines = Except.error e := by
  induction lines with
  | nil =>
    intro hm h
    obtain ⟨l, hl, _⟩ := h
    exact absurd hl (List.not_mem_nil l)
  | cons l rest ih =>
    intro hm h
    cases hp : lineProb l with
    | none => exact ⟨lineProbField l, by rw [loadGo, hp]⟩
    | some p =>
      rw [loadGo, hp]
      apply ih
      obtain ⟨l2, hl2, hbad⟩ := h
      rcases List.mem_cons.mp hl2 with rfl | hl3
      · rw [hp] at hbad
        cases hbad
      · exact ⟨l2, hl3, hbad⟩

/-- C6: a file containing a line whose trailing field is not a valid
float literal fails to load (no table is produced), and model
construction with such a bigram file fails as well, whatever the
unigram file holds. -/
theorem load_fails_on_bad_field (lines : List String)
    (h : ∃ l ∈ lines, parseFloat (lineProbField l) = none) :
    (∃ e, loadLines lines = Except.error e)
    ∧ ∀ uniLines : List String,
        ∃ e, from_file uniLines lines = Except.error e := by
  have h1 := loadGo_error_of_bad lines [] h
  refine ⟨h1, ?_⟩
  intro u
  obtain ⟨e, he⟩ := h1
  cases hu : loadLines u with
  | error eu =>
    exact ⟨eu, by simp [from_file, hu, except_bind_error]⟩
  | ok tu =>
    have he2 : loadLines lines = Except.error e := he
    exact ⟨e, by
      simp [from_file, hu, he2, except_bind_ok, except_bind_error]⟩

/-- Witness for C6 at the bigram file `["a b notanumber"]`. -/
theorem load_fails_on_bad_field_witness :
    (∃ e, loadLines ["a b notanumber"] = Except.error e)
    ∧ (∃ e, from_file [] ["a b notanumber"] = Except.error e) := by
  have h := load_fails_on_bad_field ["a b notanumber"]
    ⟨"a b notanumber", by decide, by decide⟩
  exact ⟨h.1, h.2 []⟩

/-- C7: if the unigram load fails its error is surfaced; if it succeeds
and the bigram load fails, that error is surfaced and the unigram table
is discarded; if both succeed the model holds exactly both tables.  No
partial model is ever returned. -/
theorem from_file_error_propagation :
    (∀ u b e, loadLines u = Except.error e →
       from_file u b = Except.error e)
    ∧ (∀ u b tu e, loadLines u = Except.ok tu →
        loadLines b = Except.error e → from_file u b = Except.error e)
    ∧ ∀ u b tu tb, loadLines u = Except.ok tu →
        loadLines b = Except.ok tb →
        from_file u b = Except.ok { bigrams := tb, unigrams := tu } := by
  refine ⟨?_, ?_, ?_⟩
  · intro u b e hu
    simp [from_file, hu, except_bind_error]
  · intro u b tu e hu hb
    simp [from_file, hu, hb, except_bind_ok, except_bind_error]
  · intro u b tu tb hu hb
    simp [from_file, hu, hb, except_bind_ok]

/-- Witness for C7: a failing unigram file, a failing bigram file, and
a pair of trivially valid files. -/
theorem from_file_error_propagation_witness :
    from_file ["x"] [] = Except.error "x"
    ∧ from_file [] ["x"] = Except.error "x"
    ∧ from_file [] [] = Except.ok { bigrams := [], unigrams := [] } := by
  have h := from_file_error_propagation
  exact ⟨h.1 ["x"] [] "x" (by rfl),
    h.2.1 [] ["x"] [] "x" (by rfl) (by rfl),
    h.2.2 [] [] [] [] rfl rfl⟩

/-- C9: construction from two files whose loads both succeed yields the
model holding exactly the two individually-loaded tables, and the result
is the same whichever load runs first. -/
theorem from_file_order_independent (u b : List String) (tu tb : Table)
    (hu : loadLines u = Except.ok tu) (hb : loadLines b = Except.ok tb) :
    from_file u b = Except.ok { bigrams := tb, unigrams := tu }
    ∧ fromFileSwapped u b = Except.ok { bigrams := tb, unigrams := tu }
    ∧ from_file u b = fromFileSwapped u b := by
  refine ⟨?_, ?_, ?_⟩
  · simp [from_file, hu, hb, except_bind_ok]
  · simp [fromFileSwapped, hu, hb, except_bind_ok]
  · simp [from_file, fromFileSwapped, hu, hb, except_bind_ok]

/-- The value of the literal `"1"`. -/
theorem parseFloat_one : parseFloat "1" = some 1 := by
  have h : parseFloatRaw "1" = some (false, 1, 0, 0) := by decide
  rw [parseFloat, h]
  simp [floatVal]

/-- The value of the literal `"2"`. -/
theorem parseFloat_two : parseFloat "2" = some 2 := by
  have h : parseFloatRaw "2" = some (false, 2, 0, 0) := by decide
  rw [parseFloat, h]
  simp [floatVal]

theorem loadLines_a1 : loadLines ["a 1"] = Except.ok [("a", (1 : ℚ))] := by
  have hp : lineProb "a 1" = some 1 := by
    rw [lineProb]
    have hf : lineProbField "a 1" = "1" := by decide
    rw [hf, parseFloat_one]
  have hk : lineKey "a 1" = "a" := by decide
  rw [loadLines, loadGo, hp, hk]
  rfl

theorem loadLines_bc2 : loadLines ["b c 2"] = Except.ok [("b c", (2 : ℚ))] := by
  have hp : lineProb "b c 2" = some 2 := by
    rw [lineProb]
    have hf : lineProbField "b c 2" = "2" := by decide
    rw [hf, parseFloat_two]
  have hk : lineKey "b c 2" = "b c" := by decide
  rw [loadLines, loadGo, hp, hk]
  rfl

/-- Witness for C9 at a one-line unigram file and a one-line bigram
file. -/
theorem from_file_order_independent_witness :
    from_file ["a 1"] ["b c 2"]
      = Except.ok { bigrams := [("b c", 2)], unigrams := [("a", 1)] }
    ∧ fromFileSwapped ["a 1"] ["b c 2"]
      = Except.ok { bigrams := [("b c", 2)], unigrams := [("a", 1)] } := by
  have h := from_file_order_independent ["a 1"] ["b c 2"]
    [("a", 1)] [("b c", 2)] loadLines_a1 loadLines_bc2
  exact ⟨h.1, h.2.1⟩

theorem keysOf_cons (p : String × ℚ) (m : Table) :
    keysOf (p :: m) = p.1 :: keysOf m := rfl

/-- Lookup after an insert: the inserted key maps to the new value and
every other key is unchanged. -/
theorem lookup_hmInsert (m : Table) (k : String) (v : ℚ) (k2 : String) :
    lookupTable (hmInsert m k v) k2
      = if k = k2 then some v else lookupTable m k2 := by
  induction m with
  | nil => simp [hmInsert, lookupTable]
  | cons p rest ih =>
    obtain ⟨k3, v3⟩ := p
    by_cases h : k3 = k
    · subst h
      simp only [hmInsert, if_pos rfl]
      by_cases h2 : k3 = k2
      · simp [lookupTable, h2]
      · simp [lookupTable, h2]
    · simp only [hmInsert, if_neg h]
      by_cases h3 : k3 = k2
      · have hne : k ≠ k2 := fun he => h (h3.trans he.symm)
        simp [lookupTable, h3, hne]
      · simp [lookupTable, h3, ih]

/-- Keys after an insert: unchanged when the key was present, the key
appended otherwise. -/
theorem keysOf_hmInsert (m : Table) (k : String) (v : ℚ) :
    keysOf (hmInsert m k v)
      = if k ∈ keysOf m then keysOf m else keysOf m ++ [k] := by
  induction m with
  | nil => simp [hmInsert, keysOf]
  | cons p rest ih =>
    obtain ⟨k3, v3⟩ := p
    by_cases h : k3 = k
    · subst h
      rw [hmInsert, if_pos rfl, keysOf_cons, keysOf_cons,
        if_pos (List.mem_cons_self k3 (keysOf rest))]
    · rw [hmInsert, if_neg h, keysOf_cons, keysOf_cons, ih]
      by_cases hm : k ∈ keysOf rest
      · rw [if_pos hm, if_pos (List.mem_cons_of_mem k3 hm)]
      · rw [if_neg hm, if_neg ?hni, List.cons_append]
        case hni =>
          intro hc
          rcases List.mem_cons.mp hc with h1 | h1
          · exact h h1.symm
          · exact hm h1

/-- Inserting preserves key uniqueness. -/
theorem nodupKeys_hmInsert (m : Table) (k : String) (v : ℚ)
    (h : nodupKeys m) : nodupKeys (hmInsert m k v) := by
  rw [nodupKeys, keysOf_hmInsert]
  by_cases hm : k ∈ keysOf m
  · rw [if_pos hm]
    exact h
  · rw [if_neg hm]
    rw [List.nodup_append]
    exact ⟨h, List.nodup_singleton k, by
      intro a ha hak
      rw [List.mem_singleton.mp hak] at ha
      exact hm ha⟩

/-- A key has a value exactly when it is among the keys. -/
theorem lookup_isSome_iff_mem (m : Table) (k : String) :
    (lookupTable m k).isSome = true ↔ k ∈ keysOf m := by
  induction m with
  | nil => simp [lookupTable, keysOf]
  | cons p rest ih =>
    obtain ⟨k3, v3⟩ := p
    by_cases h : k3 = k
    · subst h
      simp [lookupTable, keysOf]
    · rw [keysOf_cons]
      simp only [lookupTable, if_neg h, ih, List.mem_cons]
      constructor
      · intro h1
        exact Or.inr h1
      · intro h1
        rcases h1 with h1 | h1
        · exact absurd h1.symm h
        · exact h1

/-- No entries for an absent key. -/
theorem countKey_eq_zero (m : Table) (k : String) (h : k ∉ keysOf m) :
    countKey m k = 0 := by
  induction m with
  | nil => rfl
  | cons p rest ih =>
    obtain ⟨k3, v3⟩ := p
    rw [keysOf_cons] at h
    have h3 : k3 ≠ k := fun he => h (by rw [he]; exact List.mem_cons_self k _)
    have hr : k ∉ keysOf rest := fun hm => h (List.mem_cons_of_mem k3 hm)
    simpa [countKey, List.filter_cons, h3] using ih hr

/-- With unique keys, a present key has exactly one entry. -/
theorem countKey_eq_one (m : Table) (k : String) (hn : nodupKeys m)
    (h : k ∈ keysOf m) : countKey m k = 1 := by
  induction m with
  | nil => simp [keysOf] at h
  | cons p rest ih =>
    obtain ⟨k3, v3⟩ := p
    rw [nodupKeys, keysOf_cons, List.nodup_cons] at hn
    by_cases he : k3 = k
    · subst he
      have h0 := countKey_eq_zero rest k3 hn.1
      simpa [countKey, List.filter_cons] using h0
    · rw [keysOf_cons] at h
      have hk : k ∈ keysOf rest := by
        rcases List.mem_cons.mp h with h1 | h1
        · exact absurd h1.symm he
        · exact h1
      simpa [countKey, List.filter_cons, he] using ih hn.2 hk

/-- Peeling the first line off `lastVal`, when every line parses. -/
theorem lastVal_cons_of_parses (l : String) (rest : List String)
    (k : String) (hall : ∀ x ∈ l :: rest, (lineProb x).isSome) :
    lastVal (l :: rest) k
      = (lastVal rest k).or (if lineKey l == k then lineProb l else none) := by
  rw [lastVal, lastVal, List.reverse_cons, List.find?_append]
  cases hf : rest.reverse.find? (fun l2 => lineKey l2 == k) with
  | some l2 =>
    have hm2 : l2 ∈ rest := List.mem_reverse.mp (List.mem_of_find?_eq_some hf)
    obtain ⟨v, hv⟩ := Option.isSome_iff_exists.mp
      (hall l2 (List.mem_cons_of_mem l hm2))
    simp [hv]
  | none =>
    by_cases hk : (lineKey l == k) = true
    · simp [hk]
    · simp [hk]

/-- The loader's loop, from any accumulator, when every line parses:
it succeeds, the final lookup prefers the last line with the key and
falls back to the accumulator, and key uniqueness is preserved. -/
theorem loadGo_total (lines : List String) : ∀ hm : Table,
    (∀ l ∈ lines, (lineProb l).isSome) →
    ∃ t, loadGo hm lines = Except.ok t
      ∧ (∀ k, lookupTable t k = (lastVal lines k).or (lookupTable hm k))
      ∧ (nodupKeys hm → nodupKeys t) := by
  induction lines with
  | nil =>
    intro hm h
    refine ⟨hm, rfl, ?_, fun hn => hn⟩
    intro k
    simp [lastVal]
  | cons l rest ih =>
    intro hm h
    obtain ⟨p, hp⟩ := Option.isSome_iff_exists.mp
      (h l (List.mem_cons_self l rest))
    obtain ⟨t, ht, hlook, hnd⟩ := ih (hmInsert hm (lineKey l) p)
      (fun x hx => h x (List.mem_cons_of_mem l hx))
    refine ⟨t, by simp only [loadGo, hp]; exact ht,
      ?_, fun hn => hnd (nodupKeys_hmInsert hm (lineKey l) p hn)⟩
    intro k
    rw [hlook k, lastVal_cons_of_parses l rest k h, lookup_hmInsert,
      Option.or_assoc]
    congr 1
    by_cases hk : lineKey l = k
    · rw [if_pos hk, if_pos (by simp [hk]), hp]
      rfl
    · rw [if_neg hk, if_neg (by simp [hk])]
      rfl

/-- C10 counterexample: a file whose lines `"a 1"` and `"a 2"` share
the key `"a"` does not load when another line is malformed, so success
is not implied by the presence of duplicate keys alone. -/
theorem load_duplicate_keys_counterexample :
    lineKey "a 1" = lineKey "a 2"
    ∧ loadLines ["a 1", "a 2", "b x"] = Except.error "x" :=
  ⟨by decide, by rfl⟩

/-- C10 (amended): when every line's trailing field parses, loading
succeeds; each key maps to the probability of the last line carrying it
(later lines silently overwrite earlier ones), every key that occurs —
duplicated or not — has exactly one entry, and absent keys have none.
Uniqueness of keys in the input is not checked. -/
theorem load_duplicate_keys_overwrite (lines : List String)
    (h : ∀ l ∈ lines, (lineProb l).isSome) :
    ∃ t, loadLines lines = Except.ok t
      ∧ (∀ k, lookupTable t k = lastVal lines k)
      ∧ (∀ k, k ∈ lines.map lineKey → countKey t k = 1)
      ∧ (∀ k, k ∉ lines.map lineKey → countKey t k = 0) := by
  obtain ⟨t, ht, hlook, hnd⟩ := loadGo_total lines [] h
  have hnt : nodupKeys t := hnd (by simp [nodupKeys, keysOf])
  have hl2 : ∀ k, lookupTable t k = lastVal lines k := by
    intro k
    rw [hlook k]
    simp [lookupTable, Option.or_none]
  have hmemiff : ∀ k, k ∈ keysOf t ↔ k ∈ lines.map lineKey := by
    intro k
    rw [← lookup_isSome_iff_mem, hl2]
    constructor
    · intro hs
      rw [lastVal] at hs
      cases hf : lines.reverse.find? (fun l2 => lineKey l2 == k) with
      | none =>
        rw [hf] at hs
        simp at hs
      | some l2 =>
        have hm2 := List.mem_of_find?_eq_some hf
        have hpk := List.find?_some hf
        exact List.mem_map.mpr ⟨l2, List.mem_reverse.mp hm2, by
          simpa using hpk⟩
    · intro hmem
      obtain ⟨l, hl, hk⟩ := List.mem_map.mp hmem
      rw [lastVal]
      cases hf : lines.reverse.find? (fun l2 => lineKey l2 == k) with
      | none =>
        have : (lines.reverse.find? (fun l2 => lineKey l2 == k)).isSome := by
          rw [List.find?_isSome]
          exact ⟨l, List.mem_reverse.mpr hl, by simp [hk]⟩
        rw [hf] at this
        simp at this
      | some l2 =>
        exact h l2 (List.mem_reverse.mp (List.mem_of_find?_eq_some hf))
  refine ⟨t, ht, hl2, ?_, ?_⟩
  · intro k hk
    exact countKey_eq_one t k hnt ((hmemiff k).mpr hk)
  · intro k hk
    exact countKey_eq_zero t k (fun hm => hk ((hmemiff k).mp hm))

/-- Witness for C10's amended claim at the duplicate-key file
`["a 1", "a 2"]`. -/
theorem load_duplicate_keys_overwrite_witness :
    ∃ t, loadLines ["a 1", "a 2"] = Except.ok t
      ∧ lookupTable t "a" = some 2
      ∧ countKey t "a" = 1 := by
  obtain ⟨t, ht, hlook, hone, _⟩ :=
    load_duplicate_keys_overwrite ["a 1", "a 2"] (by decide)
  have hlv : lastVal ["a 1", "a 2"] "a" = some 2 := by
    have hf : (["a 1", "a 2"].reverse.find? (fun l2 => lineKey l2 == "a"))
        = some "a 2" := by decide
    rw [lastVal, hf]
    show lineProb "a 2" = some 2
    have hfield : lineProbField "a 2" = "2" := by decide
    rw [lineProb, hfield, parseFloat_two]
  exact ⟨t, ht, by rw [hlook "a", hlv], hone "a" (by decide)⟩

end Rustplexity
